import Mathlib

/-!
Shallow embedding of the cash-flow rebalancing calculator
(`src/classes/Portfolio.js` and `src/utilities/rebalancePortfolio.js`,
exact-rational `fraction.js` variant).

Modelling choices:

* A JavaScript string-keyed object holding `Fraction` values is modelled as an
  association list `List (String × ℚ)` in insertion order; JavaScript objects
  iterate string keys in insertion order, property update (`obj[k] = v`) keeps
  the key's original position, and assigning a fresh key appends it at the end.
* `fraction.js` arithmetic is exact rational arithmetic, embedded as `ℚ`.
* JavaScript runtime exceptions are modelled with `Except JsErr`:
  `fraction.js` throws its `DivisionByZero` error when dividing by zero, and
  accessing a property/method of `undefined` (a missing object key or a missing
  array element) throws a `TypeError`.
* The recursive `rebalance` function has no termination guard in the source;
  it is embedded with an explicit fuel parameter, `none` meaning that the
  recursion had not reached a base case or an exception within the given
  number of iterations.
-/

namespace CashflowRebalance

/-- Runtime failure conditions observable in the embedded code: a `fraction.js`
`DivisionByZero` exception, or a JavaScript `TypeError` caused by using
`undefined` (missing object key / missing array element) as an object. -/
inductive JsErr where
  | typeError
  | divisionByZero
deriving DecidableEq

instance {ε α : Type} [DecidableEq ε] [DecidableEq α] : DecidableEq (Except ε α)
  | .error a, .error b =>
    if h : a = b then .isTrue (by rw [h]) else .isFalse (fun hc => h (Except.error.inj hc))
  | .error _, .ok _ => .isFalse (fun hc => Except.noConfusion hc)
  | .ok _, .error _ => .isFalse (fun hc => Except.noConfusion hc)
  | .ok a, .ok b =>
    if h : a = b then .isTrue (by rw [h]) else .isFalse (fun hc => h (Except.ok.inj hc))

/-- A JavaScript object mapping asset names to `fraction.js` numbers, in key
insertion order. -/
abbrev AssetMap := List (String × ℚ)

/-- Reading `m[k]` from a JavaScript object: the value at the first (only)
occurrence of key `k`, or `none` (JavaScript `undefined`) when absent. -/
def lookupAsset (k : String) : AssetMap → Option ℚ
  | [] => none
  | (k', v) :: rest => if k' = k then some v else lookupAsset k rest

/-- Writing `m[k] = v` on a JavaScript object: updates the value in place when
the key is present (keeping its position) and appends the key otherwise. -/
def setAsset (k : String) (v : ℚ) : AssetMap → AssetMap
  | [] => [(k, v)]
  | (k', v') :: rest => if k' = k then (k, v) :: rest else (k', v') :: setAsset k v rest

/-- `Portfolio.#calculatePortfolioValue`: folds `add` over all asset values
starting from `new Fraction(0)`. The `Portfolio` class recomputes this cached
value in the constructor and in the `assets` setter, so at every point where
the code reads `#value` it equals this sum of the current assets. -/
def calculatePortfolioValue (assets : AssetMap) : ℚ :=
  assets.foldl (fun acc p => acc + p.2) 0

/-- Body of `Portfolio.getPortfolioAllocation`: for each entry, in order,
`percentages[name] = value.div(total)`; `fraction.js` `div` throws
`DivisionByZero` when the divisor is zero (checked per division, so an empty
assets object performs no division at all). -/
def allocEntries (total : ℚ) : AssetMap → Except JsErr AssetMap
  | [] => .ok []
  | (name, v) :: rest =>
    if total = 0 then .error .divisionByZero
    else
      match allocEntries total rest with
      | .error e => .error e
      | .ok tail => .ok ((name, v / total) :: tail)

/-- `Portfolio.getPortfolioAllocation`: each held amount divided by the cached
portfolio value (which always equals the current sum of holdings). -/
def getPortfolioAllocation (assets : AssetMap) : Except JsErr AssetMap :=
  allocEntries (calculatePortfolioValue assets) assets

/-- Loop body of `isBalanced`: for each asset of the allocation, look up the
target (a missing key yields `undefined` and `.sub` then throws a
`TypeError`), and return `false` as soon as
`targetAllocation[asset].sub(percentages[asset]).abs().compare(new Fraction('0.05')) > 0`. -/
def isBalancedAux (target : AssetMap) : AssetMap → Except JsErr Bool
  | [] => .ok true
  | (name, p) :: rest =>
    match lookupAsset name target with
    | none => .error .typeError
    | some t =>
      if (1 : ℚ)/20 < |t - p| then .ok false
      else isBalancedAux target rest

/-- `isBalanced` from `rebalancePortfolio.js` (exact variant): every asset's
current fraction is within `0.05` of its target fraction. -/
def isBalanced (assets target : AssetMap) : Except JsErr Bool :=
  match getPortfolioAllocation assets with
  | .error e => .error e
  | .ok pct => isBalancedAux target pct

/-- Classification loop of `rebalance`: for each allocation entry compute
`targetDifference = targetAllocation[name].sub(assetAllocation)` and push
`(name, |difference|)` onto `overTargetAssets` when negative,
`(name, difference)` onto `belowTargetAssets` when positive; a difference of
zero lands in neither list. -/
def classifyAssets (target : AssetMap) : AssetMap → Except JsErr (AssetMap × AssetMap)
  | [] => .ok ([], [])
  | (name, p) :: rest =>
    match lookupAsset name target with
    | none => .error .typeError
    | some t =>
      match classifyAssets target rest with
      | .error e => .error e
      | .ok (over, below) =>
        if t - p < 0 then .ok ((name, |t - p|) :: over, below)
        else if 0 < t - p then .ok (over, (name, t - p) :: below)
        else .ok (over, below)

/-- Insertion step of the stable descending sort by gap magnitude. -/
def insertDesc (x : String × ℚ) : AssetMap → AssetMap
  | [] => [x]
  | y :: ys => if y.2 ≤ x.2 then x :: y :: ys else y :: insertDesc x ys

/-- The `Array.prototype.sort` calls with comparator
`(cur, next) => next.value.compare(cur.value)`: a stable sort in descending
order of the gap value. JavaScript's sort is stable, and a stable sort for a
given comparator is unique, so this insertion sort computes the same list. -/
def sortByGapDesc : AssetMap → AssetMap
  | [] => []
  | x :: xs => insertDesc x (sortByGapDesc xs)

/-- The `overTargetAssets.reduce` of `rebalance`: walking the sorted
over-target list with accumulator `currentBalance` (starting at `0`), each
over-target asset's entry of `newAssetAllocation` is set to
`targetAllocation[name].sub(value)` clamped at zero, and the amount freed
(`targetAllocation[name]` when clamped, `value` otherwise) is accumulated. -/
def reduceOverTarget (target : AssetMap) : AssetMap → AssetMap → ℚ → Except JsErr (AssetMap × ℚ)
  | [], alloc, bal => .ok (alloc, bal)
  | (name, g) :: rest, alloc, bal =>
    match lookupAsset name target with
    | none => .error .typeError
    | some t =>
      if t - g < 0 then reduceOverTarget target rest (setAsset name 0 alloc) (bal + t)
      else reduceOverTarget target rest (setAsset name (t - g) alloc) (bal + g)

/-- Construction of `newAssetAllocation` in one iteration of `rebalance`:
start from a spread copy of `targetAllocation`, run the over-target reduce,
then `newAssetAllocation[belowTargetAssets[0].assetName] =
targetAllocation[...].add(rebalanceAmount)`. When `belowTargetAssets` is
empty, `belowTargetAssets[0]` is `undefined` and reading `.assetName` throws
a `TypeError` (after the reduce has run, matching the source order). -/
def buildNewAllocation (target overS belowS : AssetMap) : Except JsErr AssetMap :=
  match reduceOverTarget target overS target 0 with
  | .error e => .error e
  | .ok (alloc, freed) =>
    match belowS with
    | [] => .error .typeError
    | b0 :: _ =>
      match lookupAsset b0.1 target with
      | none => .error .typeError
      | some t0 => .ok (setAsset b0.1 (t0 + freed) alloc)

/-- Final loop of one `rebalance` iteration: for each entry of
`newAssetAllocation`, in order, `currentMonthInvestment[name] =
montlyContribution.mul(alloc)` and `portfolioAssets[name] =
portfolioAssets[name].add(currentMonthInvestment[name])` (a missing
portfolio key makes `.add` on `undefined` throw a `TypeError`). Returns the
month's investment object and the updated assets object. -/
def investEntries (c : ℚ) : AssetMap → AssetMap → Except JsErr (AssetMap × AssetMap)
  | [], assets => .ok ([], assets)
  | (name, a) :: rest, assets =>
    match lookupAsset name assets with
    | none => .error .typeError
    | some v =>
      match investEntries c rest (setAsset name (v + c * a) assets) with
      | .error e => .error e
      | .ok (inv, assets') => .ok ((name, c * a) :: inv, assets')

/-- One unbalanced iteration of `rebalance` (everything after the base-case
check): compute the allocation, classify and sort gaps, build the adjusted
`newAssetAllocation`, and derive this month's investment together with the
mutated assets object. -/
def rebalanceStep (assets target : AssetMap) (c : ℚ) : Except JsErr (AssetMap × AssetMap) :=
  match getPortfolioAllocation assets with
  | .error e => .error e
  | .ok pct =>
    match classifyAssets target pct with
    | .error e => .error e
    | .ok (over, below) =>
      match buildNewAllocation target (sortByGapDesc over) (sortByGapDesc below) with
      | .error e => .error e
      | .ok newAlloc => investEntries c newAlloc assets

/-- The recursive `rebalance` of `rebalancePortfolio.js`, with explicit fuel.
The source recursion has no iteration cap: `none` means the recursion had
neither reached the base case nor thrown within `fuel` iterations. On the base
case it returns the accumulated `montlyInvestments` together with the current
assets object. -/
def rebalance : Nat → AssetMap → AssetMap → ℚ → List AssetMap →
    Option (Except JsErr (List AssetMap × AssetMap))
  | 0, _, _, _, _ => none
  | fuel + 1, assets, target, c, acc =>
    match isBalanced assets target with
    | .error e => some (.error e)
    | .ok true => some (.ok (acc, assets))
    | .ok false =>
      match rebalanceStep assets target c with
      | .error e => some (.error e)
      | .ok (inv, assets') => rebalance fuel assets' target c (acc ++ [inv])

/-- `rebalancePortfolio(portfolio, targetAllocation, montlyContribution)`.
The source builds `new Portfolio(portfolio.assets)`: the constructor stores
the caller's assets *object reference* (no copy is made), and each iteration
mutates that object in place via `portfolioAssets[name] = ...` before
reassigning it through the setter. Consequently the final assets object of
the run — the second component of a successful result here — is the very
object the caller's `portfolio.assets` getter returns after the call. -/
def rebalancePortfolio (fuel : Nat) (assets target : AssetMap) (c : ℚ) :
    Option (Except JsErr (List AssetMap × AssetMap)) :=
  rebalance fuel assets target c []

/-- Sum of the values of an asset map (the quantity conservation statements
are about). -/
def mapSum (m : AssetMap) : ℚ := (m.map Prod.snd).sum

/-- Amount freed from one over-target entry: its target fraction minus its
clamped adjusted fraction (the per-asset reduction described in the spec). -/
def reductionOf (target : AssetMap) (p : String × ℚ) : ℚ :=
  (lookupAsset p.1 target).getD 0 - max 0 ((lookupAsset p.1 target).getD 0 - p.2)

theorem foldl_add_eq (l : AssetMap) : ∀ acc : ℚ,
    l.foldl (fun acc p => acc + p.2) acc = acc + (l.map Prod.snd).sum := by
  induction l with
  | nil => intro acc; simp
  | cons p rest ih => intro acc; simp [ih, add_assoc]

theorem calculatePortfolioValue_eq (assets : AssetMap) :
    calculatePortfolioValue assets = mapSum assets := by
  simp [calculatePortfolioValue, mapSum, foldl_add_eq]

theorem lookupAsset_mem {k : String} {v : ℚ} : ∀ {m : AssetMap},
    lookupAsset k m = some v → (k, v) ∈ m := by
  intro m
  induction m with
  | nil => intro h; simp [lookupAsset] at h
  | cons p rest ih =>
    intro h
    rw [lookupAsset] at h
    by_cases hk : p.1 = k
    · rw [if_pos hk] at h
      cases h
      subst hk
      exact List.mem_cons_self _ _
    · rw [if_neg hk] at h
      exact List.mem_cons_of_mem _ (ih h)

theorem lookup_of_mem_fst {k : String} : ∀ {m : AssetMap},
    k ∈ m.map Prod.fst → ∃ v, lookupAsset k m = some v := by
  intro m
  induction m with
  | nil => intro h; simp at h
  | cons p rest ih =>
    intro h
    rw [lookupAsset]
    by_cases hk : p.1 = k
    · exact ⟨p.2, by rw [if_pos hk]⟩
    · rw [if_neg hk]
      apply ih
      rcases List.mem_cons.mp h with h1 | h1
      · exact absurd h1.symm hk
      · exact h1

theorem mem_fst_of_lookup {k : String} {v : ℚ} {m : AssetMap}
    (h : lookupAsset k m = some v) : k ∈ m.map Prod.fst := by
  have := lookupAsset_mem h
  exact List.mem_map.mpr ⟨(k, v), this, rfl⟩

theorem lookupAsset_setAsset_self (k : String) (v : ℚ) : ∀ m : AssetMap,
    lookupAsset k (setAsset k v m) = some v := by
  intro m
  induction m with
  | nil => simp [setAsset, lookupAsset]
  | cons p rest ih =>
    rw [setAsset]
    by_cases hk : p.1 = k
    · rw [if_pos hk, lookupAsset, if_pos rfl]
    · rw [if_neg hk, lookupAsset, if_neg hk]
      exact ih

theorem lookupAsset_setAsset_ne {k k' : String} (v : ℚ) (h : k ≠ k') : ∀ m : AssetMap,
    lookupAsset k' (setAsset k v m) = lookupAsset k' m := by
  intro m
  induction m with
  | nil => simp [setAsset, lookupAsset, h]
  | cons p rest ih =>
    rw [setAsset]
    by_cases hk : p.1 = k
    · rw [if_pos hk, lookupAsset, if_neg h, lookupAsset,
        if_neg (show ¬(p.1 = k') by rw [hk]; exact h)]
    · rw [if_neg hk, lookupAsset, lookupAsset]
      by_cases hk' : p.1 = k'
      · rw [if_pos hk', if_pos hk']
      · rw [if_neg hk', if_neg hk']
        exact ih

theorem setAsset_map_fst {k : String} (v : ℚ) : ∀ {m : AssetMap},
    k ∈ m.map Prod.fst → (setAsset k v m).map Prod.fst = m.map Prod.fst := by
  intro m
  induction m with
  | nil => intro h; simp at h
  | cons p rest ih =>
    intro h
    rw [setAsset]
    by_cases hk : p.1 = k
    · rw [if_pos hk]
      simp [hk]
    · rw [if_neg hk]
      have hr : k ∈ rest.map Prod.fst := by
        rcases List.mem_cons.mp h with h1 | h1
        · exact absurd h1.symm hk
        · exact h1
      simp [ih hr]

theorem mapSum_setAsset {k : String} {old : ℚ} (v : ℚ) : ∀ {m : AssetMap},
    lookupAsset k m = some old → mapSum (setAsset k v m) = mapSum m - old + v := by
  intro m
  induction m with
  | nil => intro h; simp [lookupAsset] at h
  | cons p rest ih =>
    intro h
    rw [lookupAsset] at h
    rw [setAsset]
    by_cases hk : p.1 = k
    · rw [if_pos hk] at h ⊢
      cases h
      simp [mapSum]
      ring
    · rw [if_neg hk] at h ⊢
      simp only [mapSum, List.map_cons, List.sum_cons] at ih ⊢
      rw [ih h]
      ring

theorem setAsset_forall_snd {P : ℚ → Prop} {k : String} {v : ℚ}
    (hv : P v) : ∀ {m : AssetMap}, (∀ p ∈ m, P p.2) → ∀ p ∈ setAsset k v m, P p.2 := by
  intro m
  induction m with
  | nil =>
    intro _ p hp
    rw [setAsset] at hp
    rcases List.mem_singleton.mp hp with h
    rw [h]
    exact hv
  | cons q rest ih =>
    intro hm p hp
    rw [setAsset] at hp
    by_cases hk : q.1 = k
    · rw [if_pos hk] at hp
      rcases List.mem_cons.mp hp with h | h
      · rw [h]; exact hv
      · exact hm p (List.mem_cons_of_mem _ h)
    · rw [if_neg hk] at hp
      rcases List.mem_cons.mp hp with h | h
      · rw [h]; exact hm q (List.mem_cons_self _ _)
      · exact ih (fun r hr => hm r (List.mem_cons_of_mem _ hr)) p h

theorem insertDesc_perm (x : String × ℚ) : ∀ l : AssetMap, List.Perm (insertDesc x l) (x :: l) := by
  intro l
  induction l with
  | nil => rw [insertDesc]
  | cons y ys ih =>
    rw [insertDesc]
    by_cases hc : y.2 ≤ x.2
    · rw [if_pos hc]
    · rw [if_neg hc]
      exact (ih.cons y).trans (List.Perm.swap x y ys)

theorem sortByGapDesc_perm : ∀ l : AssetMap, List.Perm (sortByGapDesc l) l := by
  intro l
  induction l with
  | nil => rw [sortByGapDesc]
  | cons x xs ih =>
    rw [sortByGapDesc]
    exact (insertDesc_perm x (sortByGapDesc xs)).trans (ih.cons x)

theorem sortByGapDesc_eq_nil_iff (l : AssetMap) : sortByGapDesc l = [] ↔ l = [] := by
  constructor
  · intro h
    have hl := (sortByGapDesc_perm l).length_eq
    rw [h] at hl
    exact List.eq_nil_of_length_eq_zero hl.symm
  · intro h
    rw [h, sortByGapDesc]

theorem sortByGapDesc_mem {p : String × ℚ} {l : AssetMap} (h : p ∈ sortByGapDesc l) : p ∈ l :=
  (sortByGapDesc_perm l).mem_iff.mp h

theorem sortByGapDesc_fst_perm (l : AssetMap) :
    List.Perm ((sortByGapDesc l).map Prod.fst) (l.map Prod.fst) :=
  (sortByGapDesc_perm l).map Prod.fst

theorem allocEntries_ok {total : ℚ} (h : total ≠ 0) : ∀ assets : AssetMap,
    allocEntries total assets = .ok (assets.map fun p => (p.1, p.2 / total)) := by
  intro assets
  induction assets with
  | nil => rw [allocEntries]; rfl
  | cons p rest ih =>
    rw [allocEntries]
    rw [if_neg h, ih]
    rfl

theorem allocEntries_keys {total : ℚ} : ∀ {assets pct : AssetMap},
    allocEntries total assets = .ok pct → pct.map Prod.fst = assets.map Prod.fst := by
  intro assets
  induction assets with
  | nil =>
    intro pct h
    rw [allocEntries] at h
    cases h
    rfl
  | cons p rest ih =>
    intro pct h
    rw [allocEntries] at h
    by_cases ht : total = 0
    · rw [if_pos ht] at h; cases h
    · rw [if_neg ht] at h
      cases hrec : allocEntries total rest with
      | error e => rw [hrec] at h; cases h
      | ok tail =>
        rw [hrec] at h
        cases h
        simp [ih hrec]

theorem getPortfolioAllocation_keys {assets pct : AssetMap}
    (h : getPortfolioAllocation assets = .ok pct) : pct.map Prod.fst = assets.map Prod.fst :=
  allocEntries_keys h

theorem isBalancedAux_true_of {target : AssetMap} : ∀ {pct : AssetMap},
    (∀ p ∈ pct, ∃ t, lookupAsset p.1 target = some t ∧ |t - p.2| ≤ (1 : ℚ)/20) →
    isBalancedAux target pct = .ok true := by
  intro pct
  induction pct with
  | nil => intro _; rw [isBalancedAux]
  | cons p rest ih =>
    intro h
    obtain ⟨t, ht, htol⟩ := h p (List.mem_cons_self _ _)
    simp only [isBalancedAux, ht]
    rw [if_neg (not_lt.mpr htol)]
    exact ih fun q hq => h q (List.mem_cons_of_mem _ hq)

theorem isBalancedAux_false_elim {target : AssetMap} : ∀ {pct : AssetMap},
    isBalancedAux target pct = .ok false →
    ∃ p ∈ pct, ∃ t, lookupAsset p.1 target = some t ∧ (1 : ℚ)/20 < |t - p.2| := by
  intro pct
  induction pct with
  | nil => intro h; rw [isBalancedAux] at h; cases h
  | cons p rest ih =>
    intro h
    rw [isBalancedAux] at h
    cases hl : lookupAsset p.1 target with
    | none => rw [hl] at h; cases h
    | some t =>
      simp only [hl] at h
      by_cases htol : (1 : ℚ)/20 < |t - p.2|
      · exact ⟨p, List.mem_cons_self _ _, t, hl, htol⟩
      · rw [if_neg htol] at h
        obtain ⟨q, hq, t', ht', htol'⟩ := ih h
        exact ⟨q, List.mem_cons_of_mem _ hq, t', ht', htol'⟩

theorem isBalancedAux_missing {target : AssetMap} : ∀ {pct : AssetMap},
    (∃ p ∈ pct, lookupAsset p.1 target = none) →
    isBalancedAux target pct = .error .typeError ∨ isBalancedAux target pct = .ok false := by
  intro pct
  induction pct with
  | nil => intro h; simp at h
  | cons p rest ih =>
    intro h
    rw [isBalancedAux]
    cases hl : lookupAsset p.1 target with
    | none => simp only [hl]; exact Or.inl trivial
    | some t =>
      simp only [hl]
      by_cases htol : (1 : ℚ)/20 < |t - p.2|
      · rw [if_pos htol]
        exact Or.inr rfl
      · rw [if_neg htol]
        apply ih
        obtain ⟨q, hq, hqn⟩ := h
        rcases List.mem_cons.mp hq with h1 | h1
        · rw [h1] at hqn
          rw [hqn] at hl
          cases hl
        · exact ⟨q, h1, hqn⟩

theorem classifyAssets_lookup {target : AssetMap} : ∀ {pct over below : AssetMap},
    classifyAssets target pct = .ok (over, below) →
    ∀ p ∈ pct, ∃ t, lookupAsset p.1 target = some t := by
  intro pct
  induction pct with
  | nil => intro over below _ p hp; simp at hp
  | cons q rest ih =>
    intro over below h p hp
    rw [classifyAssets] at h
    cases hl : lookupAsset q.1 target with
    | none => rw [hl] at h; cases h
    | some t =>
      rw [hl] at h
      cases hrec : classifyAssets target rest with
      | error e => rw [hrec] at h; cases h
      | ok ob =>
        rcases List.mem_cons.mp hp with h1 | h1
        · rw [h1]
          exact ⟨t, hl⟩
        · exact ih hrec p h1

theorem classifyAssets_missing {target : AssetMap} : ∀ {pct : AssetMap},
    (∃ p ∈ pct, lookupAsset p.1 target = none) →
    classifyAssets target pct = .error .typeError := by
  intro pct
  induction pct with
  | nil => intro h; simp at h
  | cons q rest ih =>
    intro h
    rw [classifyAssets]
    cases hl : lookupAsset q.1 target with
    | none => rfl
    | some t =>
      have hrest : ∃ p ∈ rest, lookupAsset p.1 target = none := by
        obtain ⟨p, hp, hpn⟩ := h
        rcases List.mem_cons.mp hp with h1 | h1
        · rw [h1] at hpn
          rw [hpn] at hl
          cases hl
        · exact ⟨p, h1, hpn⟩
      rw [ih hrest]

/-- Structural facts about one classification pass: entries of the over list
are `(name, |t - p|)` for an allocation entry with `t - p < 0`, entries of the
below list are `(name, t - p)` with `0 < t - p`, and both name lists are
sublists of the allocation's name list. -/
theorem classifyAssets_spec {target : AssetMap} : ∀ {pct over below : AssetMap},
    classifyAssets target pct = .ok (over, below) →
    (∀ q ∈ over, ∃ p ∈ pct, ∃ t, lookupAsset p.1 target = some t ∧
        q = (p.1, |t - p.2|) ∧ t - p.2 < 0) ∧
    (∀ q ∈ below, ∃ p ∈ pct, ∃ t, lookupAsset p.1 target = some t ∧
        q = (p.1, t - p.2) ∧ 0 < t - p.2) ∧
    List.Sublist (over.map Prod.fst) (pct.map Prod.fst) ∧
    List.Sublist (below.map Prod.fst) (pct.map Prod.fst) := by
  intro pct
  induction pct with
  | nil =>
    intro over below h
    rw [classifyAssets] at h
    cases h
    exact ⟨fun q hq => by simp at hq, fun q hq => by simp at hq, List.Sublist.refl _,
      List.Sublist.refl _⟩
  | cons q rest ih =>
    intro over below h
    rw [classifyAssets] at h
    cases hl : lookupAsset q.1 target with
    | none => rw [hl] at h; cases h
    | some t =>
      simp only [hl] at h
      cases hrec : classifyAssets target rest with
      | error e => rw [hrec] at h; cases h
      | ok ob =>
        obtain ⟨over', below'⟩ := ob
        simp only [hrec] at h
        obtain ⟨iover, ibelow, isubo, isubb⟩ := ih hrec
        by_cases hneg : t - q.2 < 0
        · rw [if_pos hneg] at h
          cases h
          refine ⟨?_, ?_, ?_, ?_⟩
          · intro r hr
            rcases List.mem_cons.mp hr with h1 | h1
            · exact ⟨q, List.mem_cons_self _ _, t, hl, h1, hneg⟩
            · obtain ⟨p, hp, t', ht', he, hlt⟩ := iover r h1
              exact ⟨p, List.mem_cons_of_mem _ hp, t', ht', he, hlt⟩
          · intro r hr
            obtain ⟨p, hp, t', ht', he, hlt⟩ := ibelow r hr
            exact ⟨p, List.mem_cons_of_mem _ hp, t', ht', he, hlt⟩
          · exact List.Sublist.cons₂ _ isubo
          · exact List.Sublist.cons _ isubb
        · rw [if_neg hneg] at h
          by_cases hpos : 0 < t - q.2
          · rw [if_pos hpos] at h
            cases h
            refine ⟨?_, ?_, ?_, ?_⟩
            · intro r hr
              obtain ⟨p, hp, t', ht', he, hlt⟩ := iover r hr
              exact ⟨p, List.mem_cons_of_mem _ hp, t', ht', he, hlt⟩
            · intro r hr
              rcases List.mem_cons.mp hr with h1 | h1
              · exact ⟨q, List.mem_cons_self _ _, t, hl, h1, hpos⟩
              · obtain ⟨p, hp, t', ht', he, hlt⟩ := ibelow r h1
                exact ⟨p, List.mem_cons_of_mem _ hp, t', ht', he, hlt⟩
            · exact List.Sublist.cons _ isubo
            · exact List.Sublist.cons₂ _ isubb
          · rw [if_neg hpos] at h
            cases h
            refine ⟨?_, ?_, List.Sublist.cons _ isubo, List.Sublist.cons _ isubb⟩
            · intro r hr
              obtain ⟨p, hp, t', ht', he, hlt⟩ := iover r hr
              exact ⟨p, List.mem_cons_of_mem _ hp, t', ht', he, hlt⟩
            · intro r hr
              obtain ⟨p, hp, t', ht', he, hlt⟩ := ibelow r hr
              exact ⟨p, List.mem_cons_of_mem _ hp, t', ht', he, hlt⟩

/-- With duplicate-free allocation keys, no asset name appears in both the
over-target and the below-target list. -/
theorem classifyAssets_disjoint {target : AssetMap} : ∀ {pct over below : AssetMap},
    classifyAssets target pct = .ok (over, below) → (pct.map Prod.fst).Nodup →
    ∀ name, name ∈ over.map Prod.fst → name ∈ below.map Prod.fst → False := by
  intro pct
  induction pct with
  | nil =>
    intro over below h _ name ho _
    rw [classifyAssets] at h
    cases h
    simp at ho
  | cons q rest ih =>
    intro over below h hnd name ho hb
    rw [classifyAssets] at h
    cases hl : lookupAsset q.1 target with
    | none => rw [hl] at h; cases h
    | some t =>
      simp only [hl] at h
      cases hrec : classifyAssets target rest with
      | error e => rw [hrec] at h; cases h
      | ok ob =>
        obtain ⟨over', below'⟩ := ob
        simp only [hrec] at h
        have hnd' : (rest.map Prod.fst).Nodup := (List.nodup_cons.mp (by simpa using hnd)).2
        have hqr : q.1 ∉ rest.map Prod.fst := (List.nodup_cons.mp (by simpa using hnd)).1
        obtain ⟨_, _, isubo, isubb⟩ := classifyAssets_spec hrec
        by_cases hneg : t - q.2 < 0
        · rw [if_pos hneg] at h
          cases h
          rcases List.mem_cons.mp (show name ∈ q.1 :: over'.map Prod.fst by
              simpa only [List.map_cons] using ho) with h1 | h1
          · exact hqr (isubb.mem (h1 ▸ hb))
          · exact ih hrec hnd' name h1 hb
        · rw [if_neg hneg] at h
          by_cases hpos : 0 < t - q.2
          · rw [if_pos hpos] at h
            cases h
            rcases List.mem_cons.mp (show name ∈ q.1 :: below'.map Prod.fst by
                simpa only [List.map_cons] using hb) with h1 | h1
            · exact hqr (isubo.mem (h1 ▸ ho))
            · exact ih hrec hnd' name ho h1
          · rw [if_neg hpos] at h
            cases h
            exact ih hrec hnd' name ho hb

/-- When the below-target list of a classification pass is empty, every asset
of the allocation has gap at most zero. -/
theorem classifyAssets_below_nil {target : AssetMap} : ∀ {pct over : AssetMap},
    classifyAssets target pct = .ok (over, []) →
    ∀ p ∈ pct, ∀ t, lookupAsset p.1 target = some t → t - p.2 ≤ 0 := by
  intro pct
  induction pct with
  | nil => intro over _ p hp; simp at hp
  | cons q rest ih =>
    intro over h p hp t ht
    rw [classifyAssets] at h
    cases hl : lookupAsset q.1 target with
    | none => rw [hl] at h; cases h
    | some t' =>
      simp only [hl] at h
      cases hrec : classifyAssets target rest with
      | error e => rw [hrec] at h; cases h
      | ok ob =>
        obtain ⟨over', below'⟩ := ob
        simp only [hrec] at h
        by_cases hneg : t' - q.2 < 0
        · rw [if_pos hneg] at h
          cases h
          rcases List.mem_cons.mp hp with h1 | h1
          · rw [h1] at ht
            rw [ht] at hl
            cases hl
            rw [h1]
            exact le_of_lt hneg
          · exact ih hrec p h1 t ht
        · rw [if_neg hneg] at h
          by_cases hpos : 0 < t' - q.2
          · rw [if_pos hpos] at h
            cases h
          · rw [if_neg hpos] at h
            cases h
            rcases List.mem_cons.mp hp with h1 | h1
            · rw [h1] at ht
              rw [ht] at hl
              cases hl
              rw [h1]
              exact not_lt.mp hpos
            · exact ih hrec p h1 t ht

/-- Characterization of the over-target reduce: each over-target entry of the
adjusted allocation is its target clamped-reduced by its gap, other entries
are untouched, keys are preserved, the accumulated balance grows by the total
reduction, and the sum of allocation plus balance is invariant. -/
theorem reduceOverTarget_spec {target : AssetMap} : ∀ {overS alloc : AssetMap} {bal : ℚ}
    {alloc' : AssetMap} {bal' : ℚ},
    reduceOverTarget target overS alloc bal = .ok (alloc', bal') →
    (overS.map Prod.fst).Nodup →
    (∀ p ∈ overS, lookupAsset p.1 alloc = lookupAsset p.1 target) →
    (∀ name g t, (name, g) ∈ overS → lookupAsset name target = some t →
        lookupAsset name alloc' = some (max 0 (t - g))) ∧
    (∀ name, name ∉ overS.map Prod.fst → lookupAsset name alloc' = lookupAsset name alloc) ∧
    alloc'.map Prod.fst = alloc.map Prod.fst ∧
    bal' = bal + (overS.map (reductionOf target)).sum ∧
    mapSum alloc' + bal' = mapSum alloc + bal := by
  intro overS
  induction overS with
  | nil =>
    intro alloc bal alloc' bal' h _ _
    rw [reduceOverTarget] at h
    cases h
    refine ⟨fun name g t hmem => by simp at hmem, fun name _ => rfl, rfl, by simp, by ring⟩
  | cons q rest ih =>
    intro alloc bal alloc' bal' h hnd hagree
    rw [reduceOverTarget] at h
    cases hl : lookupAsset q.1 target with
    | none => rw [hl] at h; cases h
    | some t =>
      simp only [hl] at h
      have hndr : (rest.map Prod.fst).Nodup := (List.nodup_cons.mp (by simpa using hnd)).2
      have hqr : q.1 ∉ rest.map Prod.fst := (List.nodup_cons.mp (by simpa using hnd)).1
      have hlq : lookupAsset q.1 alloc = some t := by
        rw [hagree q (List.mem_cons_self _ _), hl]
      have hmemq : q.1 ∈ alloc.map Prod.fst := mem_fst_of_lookup hlq
      by_cases hneg : t - q.2 < 0
      · rw [if_pos hneg] at h
        have hagree' : ∀ p ∈ rest,
            lookupAsset p.1 (setAsset q.1 0 alloc) = lookupAsset p.1 target := by
          intro p hp
          have hne : q.1 ≠ p.1 := by
            intro he
            apply hqr
            rw [he]
            exact List.mem_map.mpr ⟨p, hp, rfl⟩
          rw [lookupAsset_setAsset_ne _ hne]
          exact hagree p (List.mem_cons_of_mem _ hp)
        obtain ⟨c1, c2, c3, c4, c5⟩ := ih h hndr hagree'
        have hred : reductionOf target q = t := by
          rw [reductionOf, hl]
          simp [max_eq_left (le_of_lt hneg)]
        refine ⟨?_, ?_, ?_, ?_, ?_⟩
        · intro name g t' hmem ht'
          rcases List.mem_cons.mp hmem with h1 | h1
          · have hn : name = q.1 := by rw [← h1]
            have hg : g = q.2 := by rw [← h1]
            rw [hn] at ht' ⊢
            rw [ht'] at hl
            cases hl
            rw [c2 q.1 hqr, lookupAsset_setAsset_self, hg,
              max_eq_left (le_of_lt hneg)]
          · exact c1 name g t' h1 ht'
        · intro name hno
          have hnq : name ≠ q.1 := by
            intro he
            exact hno (by rw [he]; exact List.mem_cons_self _ _)
          have hnr : name ∉ rest.map Prod.fst := by
            intro hmem
            exact hno (List.mem_cons_of_mem _ hmem)
          rw [c2 name hnr, lookupAsset_setAsset_ne _ (Ne.symm hnq)]
        · rw [c3, setAsset_map_fst _ hmemq]
        · rw [c4, List.map_cons, List.sum_cons, hred]
          ring
        · have hs : mapSum (setAsset q.1 0 alloc) = mapSum alloc - t + 0 :=
            mapSum_setAsset _ hlq
          rw [hs] at c5
          linarith [c5]
      · rw [if_neg hneg] at h
        have hge : (0 : ℚ) ≤ t - q.2 := not_lt.mp hneg
        have hagree' : ∀ p ∈ rest,
            lookupAsset p.1 (setAsset q.1 (t - q.2) alloc) = lookupAsset p.1 target := by
          intro p hp
          have hne : q.1 ≠ p.1 := by
            intro he
            apply hqr
            rw [he]
            exact List.mem_map.mpr ⟨p, hp, rfl⟩
          rw [lookupAsset_setAsset_ne _ hne]
          exact hagree p (List.mem_cons_of_mem _ hp)
        obtain ⟨c1, c2, c3, c4, c5⟩ := ih h hndr hagree'
        have hred : reductionOf target q = q.2 := by
          rw [reductionOf, hl]
          simp [max_eq_right hge]
        refine ⟨?_, ?_, ?_, ?_, ?_⟩
        · intro name g t' hmem ht'
          rcases List.mem_cons.mp hmem with h1 | h1
          · have hn : name = q.1 := by rw [← h1]
            have hg : g = q.2 := by rw [← h1]
            rw [hn] at ht' ⊢
            rw [ht'] at hl
            cases hl
            rw [c2 q.1 hqr, lookupAsset_setAsset_self, hg, max_eq_right hge]
          · exact c1 name g t' h1 ht'
        · intro name hno
          have hnq : name ≠ q.1 := by
            intro he
            exact hno (by rw [he]; exact List.mem_cons_self _ _)
          have hnr : name ∉ rest.map Prod.fst := by
            intro hmem
            exact hno (List.mem_cons_of_mem _ hmem)
          rw [c2 name hnr, lookupAsset_setAsset_ne _ (Ne.symm hnq)]
        · rw [c3, setAsset_map_fst _ hmemq]
        · rw [c4, List.map_cons, List.sum_cons, hred]
          ring
        · have hs : mapSum (setAsset q.1 (t - q.2) alloc) = mapSum alloc - t + (t - q.2) :=
            mapSum_setAsset _ hlq
          rw [hs] at c5
          linarith [c5]

/-- Characterization of the adjusted `newAssetAllocation` built in one
iteration: over-target entries are clamped-reduced, the first below-target
entry receives its target plus the whole freed amount, all other entries
keep their target value, keys and total sum of the target are preserved. -/
theorem buildNewAllocation_spec {target overS : AssetMap} {b0 : String × ℚ}
    {belowR newAlloc : AssetMap}
    (h : buildNewAllocation target overS (b0 :: belowR) = .ok newAlloc)
    (hnd : (overS.map Prod.fst).Nodup)
    (hb0 : b0.1 ∉ overS.map Prod.fst) :
    (∀ name g t, (name, g) ∈ overS → lookupAsset name target = some t →
        lookupAsset name newAlloc = some (max 0 (t - g))) ∧
    (∃ t0, lookupAsset b0.1 target = some t0 ∧
        lookupAsset b0.1 newAlloc = some (t0 + (overS.map (reductionOf target)).sum)) ∧
    (∀ name, name ∉ overS.map Prod.fst → name ≠ b0.1 →
        lookupAsset name newAlloc = lookupAsset name target) ∧
    newAlloc.map Prod.fst = target.map Prod.fst ∧
    mapSum newAlloc = mapSum target := by
  rw [buildNewAllocation] at h
  cases hred : reduceOverTarget target overS target 0 with
  | error e => rw [hred] at h; cases h
  | ok ab =>
    obtain ⟨alloc1, freed⟩ := ab
    simp only [hred] at h
    cases hl0 : lookupAsset b0.1 target with
    | none => rw [hl0] at h; cases h
    | some t0 =>
      simp only [hl0] at h
      cases h
      obtain ⟨c1, c2, c3, c4, c5⟩ := reduceOverTarget_spec hred hnd (fun p _ => rfl)
      have hfreed : freed = (overS.map (reductionOf target)).sum := by
        rw [c4]
        ring
      have hl0a : lookupAsset b0.1 alloc1 = some t0 := by rw [c2 b0.1 hb0, hl0]
      refine ⟨?_, ?_, ?_, ?_, ?_⟩
      · intro name g t hmem ht
        have hne : name ≠ b0.1 := by
          intro he
          apply hb0
          rw [← he]
          exact List.mem_map.mpr ⟨(name, g), hmem, rfl⟩
        rw [lookupAsset_setAsset_ne _ (Ne.symm hne)]
        exact c1 name g t hmem ht
      · exact ⟨t0, rfl, by rw [lookupAsset_setAsset_self, hfreed]⟩
      · intro name hno hnb
        rw [lookupAsset_setAsset_ne _ (Ne.symm hnb)]
        exact c2 name hno
      · rw [setAsset_map_fst _ (by rw [c3]; exact mem_fst_of_lookup hl0), c3]
      · rw [mapSum_setAsset _ hl0a]
        linarith [c5]

/-- The final loop of an iteration multiplies every adjusted allocation entry
by the contribution (in entry order) and preserves the keys of the assets
object it mutates. -/
theorem investEntries_spec {c : ℚ} : ∀ {entries assets inv assets' : AssetMap},
    investEntries c entries assets = .ok (inv, assets') →
    inv = entries.map (fun p => (p.1, c * p.2)) ∧
    assets'.map Prod.fst = assets.map Prod.fst := by
  intro entries
  induction entries with
  | nil =>
    intro assets inv assets' h
    rw [investEntries] at h
    cases h
    exact ⟨rfl, rfl⟩
  | cons q rest ih =>
    intro assets inv assets' h
    rw [investEntries] at h
    cases hl : lookupAsset q.1 assets with
    | none => rw [hl] at h; cases h
    | some v =>
      simp only [hl] at h
      cases hrec : investEntries c rest (setAsset q.1 (v + c * q.2) assets) with
      | error e => rw [hrec] at h; cases h
      | ok p =>
        obtain ⟨inv', assets''⟩ := p
        simp only [hrec] at h
        cases h
        obtain ⟨h1, h2⟩ := ih hrec
        constructor
        · rw [h1]
          rfl
        · rw [h2, setAsset_map_fst _ (mem_fst_of_lookup hl)]

theorem mapSum_map_mul (c : ℚ) : ∀ l : AssetMap,
    mapSum (l.map fun p => (p.1, c * p.2)) = c * mapSum l := by
  intro l
  induction l with
  | nil => simp [mapSum]
  | cons p rest ih =>
    simp only [List.map_cons, mapSum, List.sum_cons] at ih ⊢
    rw [ih]
    ring

/-- One unbalanced iteration conserves the contribution: with duplicate-free
keys and target fractions summing to one, the produced instruction sums to
the contribution and the assets object keeps its keys. -/
theorem rebalanceStep_conservation {assets target : AssetMap} {c : ℚ} {inv assets' : AssetMap}
    (hstep : rebalanceStep assets target c = .ok (inv, assets'))
    (hndA : (assets.map Prod.fst).Nodup)
    (hsum : mapSum target = 1) :
    mapSum inv = c ∧ assets'.map Prod.fst = assets.map Prod.fst := by
  rw [rebalanceStep] at hstep
  cases hpct : getPortfolioAllocation assets with
  | error e => rw [hpct] at hstep; cases hstep
  | ok pct =>
    simp only [hpct] at hstep
    cases hcls : classifyAssets target pct with
    | error e => rw [hcls] at hstep; cases hstep
    | ok ob =>
      obtain ⟨over, below⟩ := ob
      simp only [hcls] at hstep
      cases hbn : buildNewAllocation target (sortByGapDesc over) (sortByGapDesc below) with
      | error e => rw [hbn] at hstep; cases hstep
      | ok newAlloc =>
        simp only [hbn] at hstep
        cases hbs : sortByGapDesc below with
        | nil =>
          rw [hbs] at hbn
          rw [buildNewAllocation] at hbn
          cases hred : reduceOverTarget target (sortByGapDesc over) target 0 with
          | error e => rw [hred] at hbn; cases hbn
          | ok ab =>
            obtain ⟨a1, f⟩ := ab
            simp only [hred] at hbn
            cases hbn
        | cons b0 belowR =>
          rw [hbs] at hbn
          have hpctk : pct.map Prod.fst = assets.map Prod.fst := getPortfolioAllocation_keys hpct
          have hndP : (pct.map Prod.fst).Nodup := by rw [hpctk]; exact hndA
          obtain ⟨_, _, isubo, isubb⟩ := classifyAssets_spec hcls
          have hndO : ((sortByGapDesc over).map Prod.fst).Nodup :=
            ((sortByGapDesc_fst_perm over).nodup_iff).mpr (hndP.sublist isubo)
          have hb0below : b0 ∈ below := by
            apply sortByGapDesc_mem
            rw [hbs]
            exact List.mem_cons_self _ _
          have hb0no : b0.1 ∉ (sortByGapDesc over).map Prod.fst := by
            intro hmem
            have hover : b0.1 ∈ over.map Prod.fst :=
              ((sortByGapDesc_fst_perm over).mem_iff).mp hmem
            have hbelow : b0.1 ∈ below.map Prod.fst := List.mem_map.mpr ⟨b0, hb0below, rfl⟩
            exact classifyAssets_disjoint hcls hndP b0.1 hover hbelow
          obtain ⟨_, _, _, _, hsumN⟩ := buildNewAllocation_spec hbn hndO hb0no
          obtain ⟨hinv, hkeys⟩ := investEntries_spec hstep
          constructor
          · rw [hinv, mapSum_map_mul, hsumN, hsum, mul_one]
          · exact hkeys

/-- Fuel-indexed induction behind the conservation claim: every instruction
in a successful run sums to the contribution, given it holds of the
already-accumulated instructions. -/
theorem rebalance_ok_conservation {target : AssetMap} {c : ℚ}
    (hsum : mapSum target = 1) :
    ∀ (fuel : Nat) (assets : AssetMap) (acc instrs : List AssetMap) (final : AssetMap),
    (assets.map Prod.fst).Nodup →
    (∀ i ∈ acc, mapSum i = c) →
    rebalance fuel assets target c acc = some (.ok (instrs, final)) →
    ∀ i ∈ instrs, mapSum i = c := by
  intro fuel
  induction fuel with
  | zero =>
    intro assets acc instrs final _ _ h
    rw [rebalance] at h
    cases h
  | succ n ih =>
    intro assets acc instrs final hndA hacc h
    rw [rebalance] at h
    cases hbal : isBalanced assets target with
    | error e => rw [hbal] at h; cases h
    | ok b =>
      cases b with
      | true =>
        simp only [hbal] at h
        cases h
        exact hacc
      | false =>
        simp only [hbal] at h
        cases hstep : rebalanceStep assets target c with
        | error e => rw [hstep] at h; cases h
        | ok p =>
          obtain ⟨inv, assets'⟩ := p
          simp only [hstep] at h
          obtain ⟨hc, hk⟩ := rebalanceStep_conservation hstep hndA hsum
          apply ih assets' (acc ++ [inv]) instrs final (by rw [hk]; exact hndA) ?_ h
          intro i hi
          rcases List.mem_append.mp hi with h1 | h1
          · exact hacc i h1
          · rw [List.mem_singleton.mp h1]
            exact hc

theorem isBalancedAux_true_elim {target : AssetMap} : ∀ {pct : AssetMap},
    isBalancedAux target pct = .ok true →
    ∀ p ∈ pct, ∃ t, lookupAsset p.1 target = some t ∧ |t - p.2| ≤ (1 : ℚ)/20 := by
  intro pct
  induction pct with
  | nil => intro _ p hp; simp at hp
  | cons q rest ih =>
    intro h p hp
    rw [isBalancedAux] at h
    cases hl : lookupAsset q.1 target with
    | none => rw [hl] at h; cases h
    | some t =>
      simp only [hl] at h
      by_cases htol : (1 : ℚ)/20 < |t - q.2|
      · rw [if_pos htol] at h
        cases h
      · rw [if_neg htol] at h
        rcases List.mem_cons.mp hp with h1 | h1
        · exact ⟨t, by rw [h1]; exact hl, by rw [h1]; exact not_lt.mp htol⟩
        · exact ih h p h1

/-- C5: whenever the input portfolio is already balanced — every entry of its
allocation is within the 0.05 tolerance of its target fraction — `rebalance`
returns the empty instruction sequence without performing any iteration,
leaving the working portfolio untouched, for every positive fuel bound. -/
theorem balanced_returns_empty {assets target pct : AssetMap} {c : ℚ}
    (hpct : getPortfolioAllocation assets = .ok pct)
    (hbal : ∀ p ∈ pct, ∃ t, lookupAsset p.1 target = some t ∧ |t - p.2| ≤ (1 : ℚ)/20) :
    ∀ fuel : Nat, rebalancePortfolio (fuel + 1) assets target c = some (.ok ([], assets)) := by
  intro fuel
  rw [rebalancePortfolio, rebalance]
  have hb : isBalanced assets target = .ok true := by
    rw [isBalanced]
    simp only [hpct]
    exact isBalancedAux_true_of hbal
  simp only [hb]

/-- Witness for C5 at the spec's two examples: holdings `{A: 50, B: 50}` with
target `{A: 0.5, B: 0.5}` and holdings `{A: 100}` with target `{A: 1.0}` both
return the empty instruction sequence. -/
theorem balanced_returns_empty_witness :
    rebalancePortfolio 1 [("A", 50), ("B", 50)] [("A", (1:ℚ)/2), ("B", (1:ℚ)/2)] 100 =
      some (.ok ([], [("A", 50), ("B", 50)])) ∧
    rebalancePortfolio 1 [("A", 100)] [("A", (1:ℚ))] 100 = some (.ok ([], [("A", 100)])) := by
  constructor
  · exact balanced_returns_empty
      (show getPortfolioAllocation [("A", 50), ("B", 50)] =
        .ok [("A", (1:ℚ)/2), ("B", (1:ℚ)/2)] by with_unfolding_all decide)
      (isBalancedAux_true_elim (by with_unfolding_all decide)) 0
  · exact balanced_returns_empty
      (show getPortfolioAllocation [("A", 100)] = .ok [("A", (1:ℚ))] by
        with_unfolding_all decide)
      (isBalancedAux_true_elim (by with_unfolding_all decide)) 0

/-- C7 counterexample: an empty holdings map has total value zero, yet
`getPortfolioAllocation` does not fail — it returns an empty allocation map,
because the per-entry division loop never executes. -/
theorem empty_portfolio_allocation_ok :
    calculatePortfolioValue [] = 0 ∧ getPortfolioAllocation [] = .ok [] :=
  ⟨rfl, rfl⟩

/-- C7 (amended): `getPortfolioAllocation` fails with the `DivisionByZero`
condition whenever the holdings map is nonempty and the total value is zero;
an empty holdings map instead returns an empty allocation without failing. -/
theorem zero_value_allocation_fails {assets : AssetMap}
    (hne : assets ≠ []) (hz : calculatePortfolioValue assets = 0) :
    getPortfolioAllocation assets = .error .divisionByZero := by
  cases assets with
  | nil => exact absurd rfl hne
  | cons p rest =>
    rw [getPortfolioAllocation, hz, allocEntries, if_pos rfl]

/-- Witness for C7 at the all-zero single-asset portfolio `{A: 0}`. -/
theorem zero_value_allocation_fails_witness :
    ([("A", (0:ℚ))] : AssetMap) ≠ [] ∧ calculatePortfolioValue [("A", 0)] = 0 ∧
    getPortfolioAllocation [("A", 0)] = .error .divisionByZero :=
  ⟨by with_unfolding_all decide, by with_unfolding_all decide,
    zero_value_allocation_fails (by with_unfolding_all decide) (by with_unfolding_all decide)⟩

/-- C1 (code bug): at holdings `{A: 90, B: 10}`, target `{A: 0.5, B: 0.5}`,
contribution `100`, the call succeeds after one iteration and the final assets
object is `{A: 100, B: 100}`. Because `new Portfolio(portfolio.assets)` stores
the caller's assets object by reference (no copy) and each iteration mutates
that object in place via `portfolioAssets[name] = ...`, this final object is
exactly what the caller's `assets` getter yields after the call — and it
differs from the original `{A: 90, B: 10}`, so the caller's portfolio is
mutated, contradicting the non-mutation claim. -/
theorem caller_portfolio_assets_mutated :
    rebalancePortfolio 2 [("A", 90), ("B", 10)] [("A", (1:ℚ)/2), ("B", (1:ℚ)/2)] 100 =
      some (.ok ([[("A", 10), ("B", 90)]], [("A", 100), ("B", 100)])) ∧
    ([("A", (100:ℚ)), ("B", 100)] : AssetMap) ≠ [("A", 90), ("B", 10)] := by
  constructor
  · with_unfolding_all decide
  · with_unfolding_all decide

/-- C4 counterexample: at holdings `{A: 90, B: 10}`, target `{A: 0.5, B: 0.5}`,
contribution `100`, the first iteration's instruction is `{A: 10, B: 90}` —
asset B receives 90, not the full 100, and asset A receives 10, not 0 — and
the holdings after applying it are `{A: 100, B: 100}`, not `{A: 90, B: 110}`. -/
theorem first_instruction_counterexample :
    rebalanceStep [("A", 90), ("B", 10)] [("A", (1:ℚ)/2), ("B", (1:ℚ)/2)] 100 =
      .ok ([("A", 10), ("B", 90)], [("A", 100), ("B", 100)]) ∧
    lookupAsset "B" [("A", (10:ℚ)), ("B", 90)] ≠ some 100 ∧
    lookupAsset "A" [("A", (10:ℚ)), ("B", 90)] ≠ some 0 ∧
    lookupAsset "B" [("A", (100:ℚ)), ("B", 100)] ≠ some 110 := by
  refine ⟨?_, ?_, ?_, ?_⟩ <;> with_unfolding_all decide

/-- C4 (amended): at holdings `{A: 90, B: 10}`, target `{A: 0.5, B: 0.5}`,
contribution `100`, the first instruction allocates 10 to A and 90 to B
(A is over-target with adjusted target 0.1, B is the sole under-target asset
and receives target 0.5 plus the freed 0.4), the working holdings after
applying it are `{A: 100, B: 100}`, and the portfolio is then balanced, so the
returned sequence is exactly that one instruction. -/
theorem first_instruction_example :
    rebalancePortfolio 2 [("A", 90), ("B", 10)] [("A", (1:ℚ)/2), ("B", (1:ℚ)/2)] 100 =
      some (.ok ([[("A", 10), ("B", 90)]], [("A", 100), ("B", 100)])) ∧
    lookupAsset "A" [("A", (10:ℚ)), ("B", 90)] = some 10 ∧
    lookupAsset "B" [("A", (10:ℚ)), ("B", 90)] = some 90 ∧
    lookupAsset "A" [("A", (100:ℚ)), ("B", 100)] = some 100 ∧
    lookupAsset "B" [("A", (100:ℚ)), ("B", 100)] = some 100 := by
  refine ⟨?_, ?_, ?_, ?_, ?_⟩ <;> with_unfolding_all decide

/-- C9 (code bug): the recursive `rebalance` has no iteration cap and no
`NonConvergence` failure. At holdings `{A: 90, B: 10}`, target
`{A: 0.5, B: 0.5}` and contribution `0` — a target unreachable by additive
contributions, since nothing is ever added — every iteration leaves the
holdings unchanged and recurses again: for every fuel bound and any already
accumulated instruction list, the bounded evaluation runs out of fuel without
terminating and without surfacing any error. -/
theorem zero_contribution_never_terminates :
    ∀ (fuel : Nat) (acc : List AssetMap),
    rebalance fuel [("A", 90), ("B", 10)] [("A", (1:ℚ)/2), ("B", (1:ℚ)/2)] 0 acc = none := by
  intro fuel
  induction fuel with
  | zero => intro acc; rfl
  | succ n ih =>
    intro acc
    rw [rebalance]
    have hbal : isBalanced [("A", 90), ("B", 10)] [("A", (1:ℚ)/2), ("B", (1:ℚ)/2)] =
        .ok false := by
      with_unfolding_all decide
    have hstep : rebalanceStep [("A", 90), ("B", 10)] [("A", (1:ℚ)/2), ("B", (1:ℚ)/2)] 0 =
        .ok ([("A", 0), ("B", 0)], [("A", 90), ("B", 10)]) := by
      with_unfolding_all decide
    simp only [hbal, hstep]
    exact ih (acc ++ [[("A", 0), ("B", 0)]])

/-- C2: conservation — in every successful run whose target allocation
fractions sum to exactly 1 (the asset keys being duplicate-free, as
JavaScript object keys always are), every instruction of the returned
sequence has amounts summing to exactly the periodic contribution. -/
theorem rebalance_conservation {fuel : Nat} {assets target : AssetMap} {c : ℚ}
    {instrs : List AssetMap} {final : AssetMap}
    (hndA : (assets.map Prod.fst).Nodup)
    (hsum : mapSum target = 1)
    (hrun : rebalancePortfolio fuel assets target c = some (.ok (instrs, final))) :
    ∀ i ∈ instrs, mapSum i = c :=
  rebalance_ok_conservation hsum fuel assets [] instrs final hndA (fun i hi => by simp at hi) hrun

/-- Witness for C2 at holdings `{A: 90, B: 10}`, target `{A: 0.5, B: 0.5}`,
contribution `100`: the single returned instruction `{A: 10, B: 90}` sums to
exactly 100. -/
theorem rebalance_conservation_witness :
    mapSum [("A", (1:ℚ)/2), ("B", (1:ℚ)/2)] = 1 ∧
    mapSum [("A", (10:ℚ)), ("B", 90)] = 100 := by
  constructor
  · with_unfolding_all decide
  · exact rebalance_conservation (by with_unfolding_all decide) (by with_unfolding_all decide)
      (show rebalancePortfolio 2 [("A", 90), ("B", 10)] [("A", (1:ℚ)/2), ("B", (1:ℚ)/2)] 100 =
        some (.ok ([[("A", 10), ("B", 90)]], [("A", 100), ("B", 100)])) from
        by with_unfolding_all decide)
      [("A", (10:ℚ)), ("B", 90)] (by with_unfolding_all decide)

/-- C3: the adjusted target allocation of an unbalanced iteration is built as
claimed — every over-target asset's adjusted entry equals its target fraction
minus its gap magnitude, clamped at zero; the entire freed amount, the sum of
all those reductions, is added to the target fraction of exactly the first
entry of the sorted under-target list; and every other asset keeps its
original target fraction. Stated over the sorted over-target list `overS` and
the sorted under-target list headed by `b0`, with the disjointness and
duplicate-freeness that hold when `rebalanceStep` invokes the construction. -/
theorem adjusted_allocation_spec {target overS : AssetMap} {b0 : String × ℚ}
    {belowR newAlloc : AssetMap}
    (h : buildNewAllocation target overS (b0 :: belowR) = .ok newAlloc)
    (hnd : (overS.map Prod.fst).Nodup)
    (hb0 : b0.1 ∉ overS.map Prod.fst) :
    (∀ name g t, (name, g) ∈ overS → lookupAsset name target = some t →
        lookupAsset name newAlloc = some (max 0 (t - g))) ∧
    (∃ t0, lookupAsset b0.1 target = some t0 ∧
        lookupAsset b0.1 newAlloc = some (t0 + (overS.map (reductionOf target)).sum)) ∧
    (∀ name, name ∉ overS.map Prod.fst → name ≠ b0.1 →
        lookupAsset name newAlloc = lookupAsset name target) := by
  obtain ⟨c1, c2, c3, _, _⟩ := buildNewAllocation_spec h hnd hb0
  exact ⟨c1, c2, c3⟩

/-- Witness for C3 at target `{A: 0.5, B: 0.3, C: 0.2}`, one over-target asset
`A` with gap `0.4`, and most-underweight asset `C`: the adjusted allocation is
`{A: 0.1, B: 0.3, C: 0.6}`. -/
theorem adjusted_allocation_spec_witness :
    lookupAsset "A" [("A", (1:ℚ)/10), ("B", (3:ℚ)/10), ("C", (3:ℚ)/5)] =
      some (max 0 ((1:ℚ)/2 - (2:ℚ)/5)) ∧
    (∃ t0, lookupAsset "C" [("A", (1:ℚ)/2), ("B", (3:ℚ)/10), ("C", (1:ℚ)/5)] = some t0 ∧
      lookupAsset "C" [("A", (1:ℚ)/10), ("B", (3:ℚ)/10), ("C", (3:ℚ)/5)] =
        some (t0 + ([(("A" : String), (2:ℚ)/5)].map
          (reductionOf [("A", (1:ℚ)/2), ("B", (3:ℚ)/10), ("C", (1:ℚ)/5)])).sum)) ∧
    lookupAsset "B" [("A", (1:ℚ)/10), ("B", (3:ℚ)/10), ("C", (3:ℚ)/5)] =
      lookupAsset "B" [("A", (1:ℚ)/2), ("B", (3:ℚ)/10), ("C", (1:ℚ)/5)] := by
  obtain ⟨c1, c2, c3⟩ := adjusted_allocation_spec
    (show buildNewAllocation [("A", (1:ℚ)/2), ("B", (3:ℚ)/10), ("C", (1:ℚ)/5)]
        [("A", (2:ℚ)/5)] [("C", (3:ℚ)/10)] =
        .ok [("A", (1:ℚ)/10), ("B", (3:ℚ)/10), ("C", (3:ℚ)/5)] from
      by with_unfolding_all decide)
    (by with_unfolding_all decide) (by with_unfolding_all decide)
  exact ⟨c1 "A" ((2:ℚ)/5) ((1:ℚ)/2) (by with_unfolding_all decide)
      (by with_unfolding_all decide),
    c2, c3 "B" (by with_unfolding_all decide) (by with_unfolding_all decide)⟩

theorem reduceOverTarget_nonneg {target : AssetMap} : ∀ {overS alloc : AssetMap} {bal : ℚ}
    {alloc' : AssetMap} {bal' : ℚ},
    reduceOverTarget target overS alloc bal = .ok (alloc', bal') →
    (∀ p ∈ target, 0 ≤ p.2) → (∀ p ∈ overS, 0 ≤ p.2) → (∀ p ∈ alloc, 0 ≤ p.2) →
    (∀ p ∈ alloc', 0 ≤ p.2) ∧ bal ≤ bal' := by
  intro overS
  induction overS with
  | nil =>
    intro alloc bal alloc' bal' h _ _ halloc
    rw [reduceOverTarget] at h
    cases h
    exact ⟨halloc, le_refl _⟩
  | cons q rest ih =>
    intro alloc bal alloc' bal' h ht hover halloc
    rw [reduceOverTarget] at h
    cases hl : lookupAsset q.1 target with
    | none => rw [hl] at h; cases h
    | some t =>
      simp only [hl] at h
      have ht0 : (0:ℚ) ≤ t := ht (q.1, t) (lookupAsset_mem hl)
      have hg0 : (0:ℚ) ≤ q.2 := hover q (List.mem_cons_self _ _)
      have hover' : ∀ p ∈ rest, (0:ℚ) ≤ p.2 := fun p hp => hover p (List.mem_cons_of_mem _ hp)
      by_cases hneg : t - q.2 < 0
      · rw [if_pos hneg] at h
        obtain ⟨ha, hb⟩ := ih h ht hover' (setAsset_forall_snd (le_refl (0:ℚ)) halloc)
        exact ⟨ha, le_trans (by linarith) hb⟩
      · rw [if_neg hneg] at h
        obtain ⟨ha, hb⟩ := ih h ht hover'
          (setAsset_forall_snd (show (0:ℚ) ≤ t - q.2 by linarith) halloc)
        exact ⟨ha, le_trans (by linarith) hb⟩

theorem buildNewAllocation_nonneg {target overS belowS newAlloc : AssetMap}
    (h : buildNewAllocation target overS belowS = .ok newAlloc)
    (ht : ∀ p ∈ target, 0 ≤ p.2) (hover : ∀ p ∈ overS, 0 ≤ p.2) :
    ∀ p ∈ newAlloc, 0 ≤ p.2 := by
  rw [buildNewAllocation] at h
  cases hred : reduceOverTarget target overS target 0 with
  | error e => rw [hred] at h; cases h
  | ok ab =>
    obtain ⟨alloc1, freed⟩ := ab
    simp only [hred] at h
    cases belowS with
    | nil => cases h
    | cons b0 br =>
      cases hl0 : lookupAsset b0.1 target with
      | none => simp only [hl0] at h; cases h
      | some t0 =>
        simp only [hl0] at h
        cases h
        obtain ⟨ha1, hfr⟩ := reduceOverTarget_nonneg hred ht hover ht
        have ht0 : (0:ℚ) ≤ t0 := ht (b0.1, t0) (lookupAsset_mem hl0)
        exact setAsset_forall_snd (by linarith) ha1

/-- One unbalanced iteration never produces a negative amount, given
non-negative target fractions and a non-negative contribution. -/
theorem rebalanceStep_nonneg {assets target : AssetMap} {c : ℚ} {inv assets' : AssetMap}
    (hstep : rebalanceStep assets target c = .ok (inv, assets'))
    (ht : ∀ p ∈ target, 0 ≤ p.2) (hc : 0 ≤ c) :
    ∀ p ∈ inv, 0 ≤ p.2 := by
  rw [rebalanceStep] at hstep
  cases hpct : getPortfolioAllocation assets with
  | error e => rw [hpct] at hstep; cases hstep
  | ok pct =>
    simp only [hpct] at hstep
    cases hcls : classifyAssets target pct with
    | error e => rw [hcls] at hstep; cases hstep
    | ok ob =>
      obtain ⟨over, below⟩ := ob
      simp only [hcls] at hstep
      cases hbn : buildNewAllocation target (sortByGapDesc over) (sortByGapDesc below) with
      | error e => rw [hbn] at hstep; cases hstep
      | ok newAlloc =>
        simp only [hbn] at hstep
        obtain ⟨iover, _, _, _⟩ := classifyAssets_spec hcls
        have hoverpos : ∀ p ∈ sortByGapDesc over, (0:ℚ) ≤ p.2 := by
          intro p hp
          obtain ⟨q, _, t, _, he, _⟩ := iover p (sortByGapDesc_mem hp)
          rw [he]
          exact abs_nonneg _
        have hnn := buildNewAllocation_nonneg hbn ht hoverpos
        obtain ⟨hinv, _⟩ := investEntries_spec hstep
        intro p hp
        rw [hinv] at hp
        obtain ⟨q, hq, he⟩ := List.mem_map.mp hp
        rw [← he]
        exact mul_nonneg hc (hnn q hq)

/-- Fuel-indexed induction behind the non-negativity claim. -/
theorem rebalance_ok_nonneg {target : AssetMap} {c : ℚ}
    (ht : ∀ p ∈ target, 0 ≤ p.2) (hc : 0 ≤ c) :
    ∀ (fuel : Nat) (assets : AssetMap) (acc instrs : List AssetMap) (final : AssetMap),
    (∀ i ∈ acc, ∀ p ∈ i, 0 ≤ p.2) →
    rebalance fuel assets target c acc = some (.ok (instrs, final)) →
    ∀ i ∈ instrs, ∀ p ∈ i, 0 ≤ p.2 := by
  intro fuel
  induction fuel with
  | zero =>
    intro assets acc instrs final _ h
    rw [rebalance] at h
    cases h
  | succ n ih =>
    intro assets acc instrs final hacc h
    rw [rebalance] at h
    cases hbal : isBalanced assets target with
    | error e => rw [hbal] at h; cases h
    | ok b =>
      cases b with
      | true =>
        simp only [hbal] at h
        cases h
        exact hacc
      | false =>
        simp only [hbal] at h
        cases hstep : rebalanceStep assets target c with
        | error e => rw [hstep] at h; cases h
        | ok p =>
          obtain ⟨inv, assets'⟩ := p
          simp only [hstep] at h
          apply ih assets' (acc ++ [inv]) instrs final ?_ h
          intro i hi
          rcases List.mem_append.mp hi with h1 | h1
          · exact hacc i h1
          · rw [List.mem_singleton.mp h1]
            exact rebalanceStep_nonneg hstep ht hc

/-- C6: non-negativity — for every input with non-negative target fractions
and a positive periodic contribution, no instruction of a returned sequence
contains a negative amount for any asset, in any period. -/
theorem instructions_nonneg {fuel : Nat} {assets target : AssetMap} {c : ℚ}
    {instrs : List AssetMap} {final : AssetMap}
    (ht : ∀ p ∈ target, 0 ≤ p.2) (hc : 0 < c)
    (hrun : rebalancePortfolio fuel assets target c = some (.ok (instrs, final))) :
    ∀ i ∈ instrs, ∀ p ∈ i, 0 ≤ p.2 :=
  rebalance_ok_nonneg ht (le_of_lt hc) fuel assets [] instrs final
    (fun i hi => by simp at hi) hrun

/-- Witness for C6 at the one-instruction run from holdings `{A: 90, B: 10}`:
every amount of the instruction `{A: 10, B: 90}` is non-negative. -/
theorem instructions_nonneg_witness :
    (∀ p ∈ ([("A", (1:ℚ)/2), ("B", (1:ℚ)/2)] : AssetMap), 0 ≤ p.2) ∧
    (0:ℚ) < 100 ∧
    (∀ p ∈ ([("A", (10:ℚ)), ("B", 90)] : AssetMap), 0 ≤ p.2) := by
  refine ⟨by with_unfolding_all decide, by with_unfolding_all decide, ?_⟩
  exact instructions_nonneg (by with_unfolding_all decide) (by with_unfolding_all decide)
    (show rebalancePortfolio 2 [("A", 90), ("B", 10)] [("A", (1:ℚ)/2), ("B", (1:ℚ)/2)] 100 =
      some (.ok ([[("A", 10), ("B", 90)]], [("A", 100), ("B", 100)])) from
      by with_unfolding_all decide)
    [("A", (10:ℚ)), ("B", 90)] (by with_unfolding_all decide)

/-- C8 counterexample: holdings `{A: 50, B: 50}` against target
`{A: 0.5, B: 0.5, C: 0.3}` — the key sets differ, `C` is not held — yet
`rebalance` raises nothing at all: it returns the empty instruction sequence
successfully, because no key-set validation exists and the balance check only
walks the portfolio's own keys. -/
theorem extra_target_key_no_failure :
    rebalancePortfolio 1 [("A", 50), ("B", 50)]
      [("A", (1:ℚ)/2), ("B", (1:ℚ)/2), ("C", (3:ℚ)/10)] 100 =
      some (.ok ([], [("A", 50), ("B", 50)])) ∧
    lookupAsset "C" [("A", (50:ℚ)), ("B", 50)] = none := by
  constructor <;> with_unfolding_all decide

/-- C8 (amended): the code performs no key-set validation and has no
`ConfigurationMismatch` condition. When the target allocation is missing a key
that the portfolio holds, the run does fail before any instruction is
produced — with a `TypeError` from the missing-key lookup, or a
`DivisionByZero` when the total value is zero — but when the target merely has
extra keys and the portfolio is balanced on its own keys, the call succeeds
and returns the empty sequence. -/
theorem missing_target_key_fails {assets target : AssetMap} {c : ℚ} {a : String}
    (ha : a ∈ assets.map Prod.fst) (hmiss : lookupAsset a target = none) :
    ∀ fuel : Nat, ∃ e, rebalancePortfolio (fuel + 1) assets target c = some (.error e) := by
  intro fuel
  simp only [rebalancePortfolio, rebalance]
  cases hpct : getPortfolioAllocation assets with
  | error e =>
    refine ⟨e, ?_⟩
    have hb : isBalanced assets target = .error e := by
      rw [isBalanced]
      simp only [hpct]
    simp only [hb]
  | ok pct =>
    have hmem : ∃ p ∈ pct, lookupAsset p.1 target = none := by
      have hk : pct.map Prod.fst = assets.map Prod.fst := getPortfolioAllocation_keys hpct
      have hma : a ∈ pct.map Prod.fst := by rw [hk]; exact ha
      obtain ⟨p, hp, he⟩ := List.mem_map.mp hma
      exact ⟨p, hp, by rw [he]; exact hmiss⟩
    rcases isBalancedAux_missing hmem with hb | hb
    · refine ⟨.typeError, ?_⟩
      have hib : isBalanced assets target = .error .typeError := by
        rw [isBalanced]
        simp only [hpct]
        exact hb
      simp only [hib]
    · have hib : isBalanced assets target = .ok false := by
        rw [isBalanced]
        simp only [hpct]
        exact hb
      have hstep : rebalanceStep assets target c = .error .typeError := by
        rw [rebalanceStep]
        simp only [hpct]
        rw [classifyAssets_missing hmem]
      refine ⟨.typeError, ?_⟩
      simp only [hib, hstep]

/-- Witness for C8 at the spec's example: holdings `{A: 90, B: 10}` against
target keys `{A: 0.6, C: 0.4}` (key `B` missing from the target). -/
theorem missing_target_key_fails_witness :
    ("B" ∈ ([("A", (90:ℚ)), ("B", 10)] : AssetMap).map Prod.fst) ∧
    lookupAsset "B" [("A", (3:ℚ)/5), ("C", (2:ℚ)/5)] = none ∧
    ∃ e, rebalancePortfolio 1 [("A", 90), ("B", 10)] [("A", (3:ℚ)/5), ("C", (2:ℚ)/5)] 100 =
      some (.error e) :=
  ⟨by with_unfolding_all decide, by with_unfolding_all decide,
    missing_target_key_fails
      (show "B" ∈ ([("A", (90:ℚ)), ("B", 10)] : AssetMap).map Prod.fst from
        by with_unfolding_all decide)
      (show lookupAsset "B" [("A", (3:ℚ)/5), ("C", (2:ℚ)/5)] = none from
        by with_unfolding_all decide) 0⟩

theorem mapSum_alloc {T : ℚ} : ∀ assets : AssetMap,
    mapSum (assets.map fun p => (p.1, p.2 / T)) = mapSum assets / T := by
  intro assets
  induction assets with
  | nil => simp [mapSum]
  | cons p rest ih =>
    simp only [List.map_cons, mapSum, List.sum_cons] at ih ⊢
    rw [ih, add_div]

theorem sum_lookup_getD : ∀ {m l : AssetMap}, (m.map Prod.fst).Nodup →
    l.map Prod.fst = m.map Prod.fst →
    (l.map fun p => (lookupAsset p.1 m).getD 0).sum = mapSum m := by
  intro m
  induction m with
  | nil =>
    intro l _ hk
    have : l = [] := by
      cases l with
      | nil => rfl
      | cons p r => simp at hk
    rw [this]
    simp [mapSum]
  | cons q mrest ih =>
    intro l hnd hk
    cases l with
    | nil => simp at hk
    | cons p lrest =>
      simp only [List.map_cons, List.cons.injEq] at hk
      obtain ⟨hk1, hk2⟩ := hk
      have hndr : (mrest.map Prod.fst).Nodup := (List.nodup_cons.mp (by simpa using hnd)).2
      have hqm : q.1 ∉ mrest.map Prod.fst := (List.nodup_cons.mp (by simpa using hnd)).1
      simp only [List.map_cons, List.sum_cons, mapSum]
      have hhead : (lookupAsset p.1 (q :: mrest)).getD 0 = q.2 := by
        rw [lookupAsset, if_pos hk1.symm]
        rfl
      have htail : (lrest.map fun p => (lookupAsset p.1 (q :: mrest)).getD 0) =
          lrest.map fun p => (lookupAsset p.1 mrest).getD 0 := by
        apply List.map_congr_left
        intro r hr
        have hrm : r.1 ∈ mrest.map Prod.fst := by
          rw [← hk2]
          exact List.mem_map.mpr ⟨r, hr, rfl⟩
        have hne : q.1 ≠ r.1 := by
          intro he
          rw [he] at hqm
          exact hqm hrm
        rw [lookupAsset, if_neg (fun he => hne he)]
      rw [hhead, htail]
      have := ih hndr hk2
      simp only [mapSum] at this
      rw [this]

theorem sum_map_sub (f g : String × ℚ → ℚ) : ∀ l : AssetMap,
    (l.map fun p => f p - g p).sum = (l.map f).sum - (l.map g).sum := by
  intro l
  induction l with
  | nil => simp
  | cons p rest ih =>
    simp only [List.map_cons, List.sum_cons, ih]
    ring

theorem sum_nonpos_of_all_nonpos : ∀ {l : List ℚ}, (∀ x ∈ l, x ≤ 0) → l.sum ≤ 0 := by
  intro l
  induction l with
  | nil => intro _; simp
  | cons a rest ih =>
    intro h
    rw [List.sum_cons]
    have hr := ih fun x hx => h x (List.mem_cons_of_mem _ hx)
    have ha := h a (List.mem_cons_self _ _)
    linarith

theorem sum_neg_of_all_nonpos : ∀ {l : List ℚ},
    (∀ x ∈ l, x ≤ 0) → (∃ x ∈ l, x < 0) → l.sum < 0 := by
  intro l
  induction l with
  | nil => intro _ hx; simp at hx
  | cons a rest ih =>
    intro hle hex
    rw [List.sum_cons]
    have ha : a ≤ 0 := hle a (List.mem_cons_self _ _)
    have hr := sum_nonpos_of_all_nonpos fun x hx => hle x (List.mem_cons_of_mem _ hx)
    obtain ⟨x, hx, hxlt⟩ := hex
    rcases List.mem_cons.mp hx with h1 | h1
    · rw [h1] at hxlt
      linarith
    · have hrs : rest.sum < 0 := ih (fun y hy => hle y (List.mem_cons_of_mem _ hy)) ⟨x, h1, hxlt⟩
      linarith

/-- C10 counterexample: holdings `{A: 100}` against target
`{A: 0.9, B: 0.1}` — target fractions sum to exactly 1, total value positive,
balance predicate false — yet the under-target list built in the iteration is
empty, and the iteration dereferences the missing `belowTargetAssets[0]` and
fails with a `TypeError`: the claim's provisos do not suffice. -/
theorem below_target_empty_counterexample :
    mapSum [("A", (9:ℚ)/10), ("B", (1:ℚ)/10)] = 1 ∧
    (0:ℚ) < calculatePortfolioValue [("A", 100)] ∧
    isBalanced [("A", 100)] [("A", (9:ℚ)/10), ("B", (1:ℚ)/10)] = .ok false ∧
    getPortfolioAllocation [("A", 100)] = .ok [("A", 1)] ∧
    classifyAssets [("A", (9:ℚ)/10), ("B", (1:ℚ)/10)] [("A", 1)] =
      .ok ([("A", (1:ℚ)/10)], []) ∧
    rebalanceStep [("A", 100)] [("A", (9:ℚ)/10), ("B", (1:ℚ)/10)] 100 =
      .error .typeError := by
  refine ⟨?_, ?_, ?_, ?_, ?_, ?_⟩ <;> with_unfolding_all decide

/-- C10 (amended): in every iteration whose balance predicate is false,
provided the target fractions sum to exactly 1, the portfolio total value is
positive, and — additionally to the claim — the target allocation's key set
is exactly the portfolio's key set (membership-equal in either insertion
order, both duplicate-free as JavaScript object keys are), the under-target
list built in that iteration is non-empty, and so is its sorted version whose
first entry the code reads: `belowTargetAssets[0]` never dereferences a
missing element. -/
theorem below_target_nonempty {assets target pct over below : AssetMap}
    (hset : ∀ k, k ∈ assets.map Prod.fst ↔ k ∈ target.map Prod.fst)
    (hndA : (assets.map Prod.fst).Nodup)
    (hnd : (target.map Prod.fst).Nodup)
    (hsum : mapSum target = 1)
    (hpos : 0 < calculatePortfolioValue assets)
    (hunb : isBalanced assets target = .ok false)
    (hpct : getPortfolioAllocation assets = .ok pct)
    (hcls : classifyAssets target pct = .ok (over, below)) :
    below ≠ [] ∧ sortByGapDesc below ≠ [] := by
  have hmain : below ≠ [] := by
    intro hbe
    subst hbe
    have hT : calculatePortfolioValue assets ≠ 0 := ne_of_gt hpos
    have hpct' : pct = assets.map fun p => (p.1, p.2 / calculatePortfolioValue assets) := by
      rw [getPortfolioAllocation, allocEntries_ok hT] at hpct
      exact (Except.ok.inj hpct).symm
    have hpsum : mapSum pct = 1 := by
      rw [hpct', mapSum_alloc, ← calculatePortfolioValue_eq, div_self hT]
    have hperm : List.Perm (assets.map Prod.fst) (target.map Prod.fst) :=
      (List.perm_ext_iff_of_nodup hndA hnd).mpr hset
    have hpk : pct.map Prod.fst = assets.map Prod.fst := getPortfolioAllocation_keys hpct
    have hts : (pct.map fun p => (lookupAsset p.1 target).getD 0).sum = 1 := by
      have hpp : List.Perm (pct.map Prod.fst) (target.map Prod.fst) := by
        rw [hpk]
        exact hperm
      have h1 : (pct.map fun p => (lookupAsset p.1 target).getD 0) =
          (pct.map Prod.fst).map fun k => (lookupAsset k target).getD 0 := by
        rw [List.map_map]
        rfl
      have h2 := (hpp.map fun k => (lookupAsset k target).getD 0).sum_eq
      have h3 : ((target.map Prod.fst).map fun k => (lookupAsset k target).getD 0) =
          target.map fun p => (lookupAsset p.1 target).getD 0 := by
        rw [List.map_map]
        rfl
      rw [h1, h2, h3, sum_lookup_getD hnd rfl, hsum]
    have hgap : (pct.map fun p => (lookupAsset p.1 target).getD 0 - p.2).sum = 0 := by
      rw [sum_map_sub (fun p => (lookupAsset p.1 target).getD 0) (fun p => p.2), hts]
      have hm2 : (pct.map fun p => p.2).sum = mapSum pct := rfl
      rw [hm2, hpsum]
      ring
    have hle : ∀ x ∈ pct.map (fun p => (lookupAsset p.1 target).getD 0 - p.2), x ≤ 0 := by
      intro x hx
      obtain ⟨p, hp, he⟩ := List.mem_map.mp hx
      obtain ⟨t, ht⟩ := classifyAssets_lookup hcls p hp
      have hb := classifyAssets_below_nil hcls p hp t ht
      rw [← he, ht]
      simpa using hb
    have hex : ∃ x ∈ pct.map (fun p => (lookupAsset p.1 target).getD 0 - p.2), x < 0 := by
      have hunb' : isBalancedAux target pct = .ok false := by
        rw [isBalanced] at hunb
        simp only [hpct] at hunb
        exact hunb
      obtain ⟨p, hp, t, ht, htol⟩ := isBalancedAux_false_elim hunb'
      refine ⟨(lookupAsset p.1 target).getD 0 - p.2, List.mem_map.mpr ⟨p, hp, rfl⟩, ?_⟩
      rw [ht]
      have hb := classifyAssets_below_nil hcls p hp t ht
      have hne : t - p.2 ≠ 0 := by
        intro h0
        rw [h0, abs_zero] at htol
        exact absurd htol (by norm_num)
      simpa using lt_of_le_of_ne hb hne
    have hneg := sum_neg_of_all_nonpos hle hex
    rw [hgap] at hneg
    exact lt_irrefl 0 hneg
  exact ⟨hmain, fun hs => hmain ((sortByGapDesc_eq_nil_iff below).mp hs)⟩

/-- Witness for C10 at the unbalanced holdings `{A: 90, B: 10}` with target
`{A: 0.5, B: 0.5}`: the under-target list is `[("B", 0.4)]`, non-empty. -/
theorem below_target_nonempty_witness :
    ([("B", (2:ℚ)/5)] : AssetMap) ≠ [] ∧ sortByGapDesc [("B", (2:ℚ)/5)] ≠ [] :=
  below_target_nonempty
    (show ∀ k, k ∈ ([("A", (90:ℚ)), ("B", 10)] : AssetMap).map Prod.fst ↔
        k ∈ ([("A", (1:ℚ)/2), ("B", (1:ℚ)/2)] : AssetMap).map Prod.fst from
      fun _ => Iff.rfl)
    (by with_unfolding_all decide) (by with_unfolding_all decide)
    (by with_unfolding_all decide) (by with_unfolding_all decide)
    (by with_unfolding_all decide)
    (show getPortfolioAllocation [("A", 90), ("B", 10)] =
      .ok [("A", (9:ℚ)/10), ("B", (1:ℚ)/10)] from by with_unfolding_all decide)
    (show classifyAssets [("A", (1:ℚ)/2), ("B", (1:ℚ)/2)] [("A", (9:ℚ)/10), ("B", (1:ℚ)/10)] =
      .ok ([("A", (2:ℚ)/5)], [("B", (2:ℚ)/5)]) from by with_unfolding_all decide)

end CashflowRebalance
